import Mathlib

/-!
Shallow embedding of the Merkle-proof verification library
(`libs/proofs/src/lib.rs`) of the centrifuge-chain repository.

A digest (`Hash` in the source) is an opaque value with a read-only byte
view (`AsRef<[u8]>`), construction from raw bytes (`From<[u8; 32]>`) and
decidable equality (`PartialEq`).  Bytes are modelled as `Nat`, a byte
sequence as `List Nat`.  The `Hasher` and `Verifier` traits become
structures carrying the injected capabilities; the generic `Hash` type is
a type parameter.  `Vec<Hash>` becomes `List Hash`; `Vec::push` appends at
the end, `Vec::contains` is list membership.  The source's `matches`
binder is spelled `ms` here because `matches` is a Lean keyword.  The
mutable cache is threaded explicitly: a Rust function mutating `&mut Vec<Hash>` becomes
a Lean function returning the result together with the new cache.
-/

/-- `struct Proof<Hash> { leaf_hash: Hash, sorted_hashes: Vec<Hash> }`. -/
structure Proof (Hash : Type) where
  leaf_hash : Hash
  sorted_hashes : List Hash
deriving DecidableEq, Repr

/-- The `Hasher` trait: the associated `Hash` type's byte view
(`AsRef<[u8]>`), its construction from a raw 32-byte digest
(`From<[u8; 32]>`, applied by `.into()`), and the injected digest
function `fn hash(data: &[u8]) -> [u8; 32]`. -/
structure Hasher (Hash : Type) where
  asRef : Hash → List Nat
  ofBytes : List Nat → Hash
  hash : List Nat → List Nat

/-- The `Verifier` trait extends `Hasher` with
`fn initial_matches(doc_root: Self::Hash) -> Option<Vec<Self::Hash>>`. -/
structure Verifier (Hash : Type) extends Hasher Hash where
  initial_matches : Hash → Option (List Hash)

namespace Verifier

variable {Hash : Type} [DecidableEq Hash]

/-- `Verifier::hash_of`: builds a byte vector, extends it with the byte
view of `a`, then with the byte view of `b`, hashes it once and converts
the raw digest back into a `Hash`. -/
def hash_of (V : Verifier Hash) (a b : Hash) : Hash :=
  let h : List Nat := []
  let h := h ++ V.asRef a
  let h := h ++ V.asRef b
  V.ofBytes (V.hash h)

end Verifier

namespace helpers

variable {Hash : Type} [DecidableEq Hash]

/-- The `for proof in sorted_hashes` loop inside `helpers::validate_proof`:
push the sibling, combine, succeed if the combined hash is already cached,
otherwise push the combined hash and continue. -/
def validate_loop (V : Verifier Hash) :
    List Hash → Hash → List Hash → Bool × List Hash
  | ms, _, [] => (false, ms)
  | ms, hash, p :: rest =>
      let ms := ms ++ [p]
      let hash := V.hash_of hash p
      if hash ∈ ms then (true, ms)
      else validate_loop V (ms ++ [hash]) hash rest

/-- `helpers::validate_proof`: succeed immediately when `leaf_hash` is
already cached, otherwise walk the sibling path with `validate_loop`.
Returns the boolean result together with the updated cache. -/
def validate_proof (V : Verifier Hash) (ms : List Hash)
    (proof : Proof Hash) : Bool × List Hash :=
  if proof.leaf_hash ∈ ms then (true, ms)
  else validate_loop V ms proof.leaf_hash proof.sorted_hashes

end helpers

namespace Verifier

variable {Hash : Type} [DecidableEq Hash]

/-- The fused `proofs.iter().map(..).fold(true, |acc, b| acc && b)` of
`Verifier::validate_proofs`: the cache is threaded through every proof
while the boolean accumulator collects the conjunction. -/
def validate_fold (V : Verifier Hash) :
    List Hash → Bool → List (Proof Hash) → Bool × List Hash
  | ms, acc, [] => (acc, ms)
  | ms, acc, p :: ps =>
      let r := helpers.validate_proof V ms p
      validate_fold V r.2 (acc && r.1) ps

/-- `Verifier::validate_proofs`: reject an empty batch, reject a root on
which `initial_matches` is `None`, otherwise validate every proof against
the one shared cache and AND the results. -/
def validate_proofs (V : Verifier Hash) (doc_root : Hash)
    (proofs : List (Proof Hash)) : Bool :=
  if proofs.length < 1 then false
  else
    match V.initial_matches doc_root with
    | none => false
    | some ms => (validate_fold V ms true proofs).1

/-- `Verifier::validate_proof`: seed the cache from the root (failing when
`initial_matches` is `None`), then validate the single proof. -/
def validate_proof (V : Verifier Hash) (doc_root : Hash)
    (proof : Proof Hash) : Bool :=
  match V.initial_matches doc_root with
  | none => false
  | some ms => (helpers.validate_proof V ms proof).1

end Verifier

namespace BundleHasher

variable {Hash : Type} [DecidableEq Hash]

/-- `BundleHasher::bundled_hash`: fold the proofs over an accumulator
seeded with the deposit address bytes, appending each proof's leaf hash
bytes, then hash the accumulator once. -/
def bundled_hash (H : Hasher Hash) (proofs : List (Proof Hash))
    (deposit_address : List Nat) : Hash :=
  let hash := proofs.foldl
    (fun acc proof => acc ++ H.asRef proof.leaf_hash) deposit_address
  H.ofBytes (H.hash hash)

end BundleHasher

section SpecSide

variable {Hash : Type} [DecidableEq Hash]

/-- Loop of the specification's `validate_one` algorithm, transcribed from
the spec's words: for each sibling in order, insert the sibling into the
cache, set `current = combine(current, sibling)`, succeed if `current` is
now present, otherwise insert `current` and continue; fail when the path
is exhausted.  Insertion is modelled by consing onto the cache (the spec
treats the cache as a set, so only membership may matter). -/
def spec_loop (V : Verifier Hash) :
    List Hash → Hash → List Hash → Bool × List Hash
  | cache, _, [] => (false, cache)
  | cache, current, sibling :: rest =>
      let cache := sibling :: cache
      let current := V.hash_of current sibling
      if current ∈ cache then (true, cache)
      else spec_loop V (current :: cache) current rest

/-- The specification's `validate_one` algorithm: succeed immediately when
`leaf_digest` is already in the cache, otherwise walk the path with
`spec_loop` starting from `current = leaf_digest`. -/
def validate_one_spec (V : Verifier Hash) (cache : List Hash)
    (proof : Proof Hash) : Bool × List Hash :=
  if proof.leaf_hash ∈ cache then (true, cache)
  else spec_loop V cache proof.leaf_hash proof.sorted_hashes

/-- Per-proof results of a batch: each proof is validated against the
cache produced by validating all previous proofs of the batch, whatever
their individual results were. -/
def batch_results (V : Verifier Hash) :
    List Hash → List (Proof Hash) → List Bool
  | _, [] => []
  | ms, p :: ps =>
      (helpers.validate_proof V ms p).1 ::
        batch_results V (helpers.validate_proof V ms p).2 ps

end SpecSide

section Lemmas

variable {Hash : Type} [DecidableEq Hash]

/-- Two caches are observationally equal when they hold the same digests. -/
def memEquiv (m₁ m₂ : List Hash) : Prop := ∀ x, x ∈ m₁ ↔ x ∈ m₂

omit [DecidableEq Hash] in
theorem memEquiv_refl (m : List Hash) : memEquiv m m := fun _ => Iff.rfl

theorem validate_loop_spec_loop (V : Verifier Hash) (l : List Hash) :
    ∀ (m₁ m₂ : List Hash) (h : Hash), memEquiv m₁ m₂ →
      (helpers.validate_loop V m₁ h l).1 = (spec_loop V m₂ h l).1 ∧
      memEquiv (helpers.validate_loop V m₁ h l).2 (spec_loop V m₂ h l).2 := by
  induction l with
  | nil => intro m₁ m₂ h hm; exact ⟨rfl, hm⟩
  | cons s rest ih =>
      intro m₁ m₂ h hm
      have hm' : memEquiv (m₁ ++ [s]) (s :: m₂) := by
        intro x
        simp only [List.mem_append, List.mem_cons, List.mem_singleton, hm x]
        tauto
      simp only [helpers.validate_loop, spec_loop]
      by_cases hc : V.hash_of h s ∈ m₁ ++ [s]
      · rw [if_pos hc, if_pos ((hm' _).mp hc)]
        exact ⟨rfl, hm'⟩
      · rw [if_neg hc, if_neg (fun c => hc ((hm' _).mpr c))]
        apply ih
        intro x
        simp only [List.mem_append, List.mem_cons, List.mem_singleton, hm' x]
        tauto

theorem validate_loop_mono (V : Verifier Hash) (l : List Hash) :
    ∀ (m : List Hash) (h x : Hash), x ∈ m →
      x ∈ (helpers.validate_loop V m h l).2 := by
  induction l with
  | nil => intro m h x hx; exact hx
  | cons s rest ih =>
      intro m h x hx
      simp only [helpers.validate_loop]
      by_cases hc : V.hash_of h s ∈ m ++ [s]
      · rw [if_pos hc]; exact List.mem_append_left _ hx
      · rw [if_neg hc]
        exact ih _ _ _ (List.mem_append_left _ (List.mem_append_left _ hx))

theorem validate_proof_mono (V : Verifier Hash) (m : List Hash)
    (p : Proof Hash) (x : Hash) (hx : x ∈ m) :
    x ∈ (helpers.validate_proof V m p).2 := by
  unfold helpers.validate_proof
  by_cases hc : p.leaf_hash ∈ m
  · rw [if_pos hc]; exact hx
  · rw [if_neg hc]; exact validate_loop_mono V _ _ _ _ hx

theorem validate_fold_mono (V : Verifier Hash) (ps : List (Proof Hash)) :
    ∀ (m : List Hash) (acc : Bool) (x : Hash), x ∈ m →
      x ∈ (Verifier.validate_fold V m acc ps).2 := by
  induction ps with
  | nil => intro m acc x hx; exact hx
  | cons p ps ih =>
      intro m acc x hx
      exact ih _ _ _ (validate_proof_mono V m p x hx)

theorem validate_loop_false_mem (V : Verifier Hash) (m : List Hash)
    (h s : Hash) (rest : List Hash)
    (hf : (helpers.validate_loop V m h (s :: rest)).1 = false) :
    V.hash_of h s ∈ (helpers.validate_loop V m h (s :: rest)).2 := by
  simp only [helpers.validate_loop] at hf ⊢
  by_cases hc : V.hash_of h s ∈ m ++ [s]
  · rw [if_pos hc] at hf; exact absurd hf (by simp)
  · rw [if_neg hc] at hf ⊢
    exact validate_loop_mono V rest _ _ _ (by simp)

theorem validate_fold_eq_all (V : Verifier Hash) (ps : List (Proof Hash)) :
    ∀ (m : List Hash) (acc : Bool),
      (Verifier.validate_fold V m acc ps).1 =
        (acc && (batch_results V m ps).all (fun b => b)) := by
  induction ps with
  | nil => intro m acc; simp [Verifier.validate_fold, batch_results]
  | cons p ps ih =>
      intro m acc
      simp only [Verifier.validate_fold, batch_results, List.all_cons]
      rw [ih, Bool.and_assoc]

omit [DecidableEq Hash] in
theorem foldl_append_eq (f : Proof Hash → List Nat) (ps : List (Proof Hash)) :
    ∀ acc : List Nat,
      ps.foldl (fun acc p => acc ++ f p) acc = acc ++ (ps.map f).flatten := by
  induction ps with
  | nil => intro acc; simp
  | cons p ps ih =>
      intro acc
      simp only [List.foldl_cons, List.map_cons, List.flatten_cons, ih,
        List.append_assoc]

end Lemmas

section ConcreteVerifiers

/-- A conforming verifier over byte-list digests whose digest function is
the identity and whose initial trusted set is the singleton of the root. -/
def idVerifier : Verifier (List Nat) :=
  { asRef := id, ofBytes := id, hash := id,
    initial_matches := fun r => some [r] }

/-- A verifier whose injected digest function is constant. -/
def constVerifier : Verifier (List Nat) :=
  { asRef := id, ofBytes := id, hash := fun _ => List.replicate 32 0,
    initial_matches := fun r => some [r] }

/-- A verifier that recognizes no root at all: `initial_matches` is always
`None`. -/
def noneVerifier : Verifier (List Nat) :=
  { asRef := id, ofBytes := id, hash := id,
    initial_matches := fun _ => none }

end ConcreteVerifiers

section Claims

variable {Hash : Type} [DecidableEq Hash]

/-- C1: for every cache and every proof, `helpers.validate_proof` follows
exactly the specified algorithm (`validate_one_spec`, transcribed from the
spec's words): same boolean result and an observationally equal cache —
immediate success when the leaf digest is cached, otherwise the walk that
inserts each sibling, combines, succeeds on a cache hit of the combined
digest and inserts it otherwise, failing on path exhaustion. -/
theorem C1_validate_one_follows_spec (V : Verifier Hash) (m : List Hash)
    (p : Proof Hash) :
    (helpers.validate_proof V m p).1 = (validate_one_spec V m p).1 ∧
      memEquiv (helpers.validate_proof V m p).2 (validate_one_spec V m p).2 := by
  unfold helpers.validate_proof validate_one_spec
  by_cases hc : p.leaf_hash ∈ m
  · rw [if_pos hc, if_pos hc]
    exact ⟨rfl, memEquiv_refl m⟩
  · rw [if_neg hc, if_neg hc]
    exact validate_loop_spec_loop V p.sorted_hashes m m p.leaf_hash
      (memEquiv_refl m)

/-- C3: `validate_proofs` on an empty batch returns `false` for every
verifier and every root, whatever `initial_matches` would return. -/
theorem C3_empty_batch_rejected (V : Verifier Hash) (root : Hash) :
    Verifier.validate_proofs V root [] = false := rfl

omit [DecidableEq Hash] in
/-- C6: `hash_of a b` is the injected digest function applied once to the
byte view of `a` followed by the byte view of `b`, in that order. -/
theorem C6_hash_of_is_concat_then_hash (V : Verifier Hash) (a b : Hash) :
    V.hash_of a b = V.ofBytes (V.hash (V.asRef a ++ V.asRef b)) := rfl

/-- C9: the cache only grows: every digest present before a call to
`helpers.validate_proof` is still present after it, and every digest
present when a batch fold starts is still present when it ends. -/
theorem C9_cache_only_grows (V : Verifier Hash) (m : List Hash)
    (p : Proof Hash) (ps : List (Proof Hash)) (acc : Bool) (x : Hash)
    (hx : x ∈ m) :
    x ∈ (helpers.validate_proof V m p).2 ∧
      x ∈ (Verifier.validate_fold V m acc ps).2 :=
  ⟨validate_proof_mono V m p x hx, validate_fold_mono V ps m acc x hx⟩

/-- Witness for C9 at a concrete cache, proof and batch. -/
theorem C9_witness :
    [5] ∈ (helpers.validate_proof idVerifier [[5]] ⟨[1], [[2]]⟩).2 ∧
      [5] ∈ (Verifier.validate_fold idVerifier [[5]] true
        [⟨[1], [[2]]⟩]).2 :=
  C9_cache_only_grows idVerifier [[5]] ⟨[1], [[2]]⟩ [⟨[1], [[2]]⟩] true [5]
    (by decide)

/-- C10: when the proof's leaf digest is already cached,
`helpers.validate_proof` returns `true` and the cache is exactly
unchanged. -/
theorem C10_cached_leaf_short_circuit (V : Verifier Hash) (m : List Hash)
    (p : Proof Hash) (h : p.leaf_hash ∈ m) :
    helpers.validate_proof V m p = (true, m) := by
  unfold helpers.validate_proof
  rw [if_pos h]

/-- Witness for C10 at a concrete cache and proof. -/
theorem C10_witness :
    ([1] : List Nat) ∈ [[1], [5]] ∧
      helpers.validate_proof idVerifier [[1], [5]] ⟨[1], [[2]]⟩ =
        (true, [[1], [5]]) :=
  ⟨by decide,
    C10_cached_leaf_short_circuit idVerifier [[1], [5]] ⟨[1], [[2]]⟩
      (by decide)⟩

/-- C2: on an accepted root and a non-empty batch, `validate_proofs`
equals the conjunction of the per-proof results of `batch_results`, in
which each proof is validated against the cache threaded through all the
previous proofs of the batch regardless of their individual outcomes. -/
theorem C2_batch_is_and_of_results (V : Verifier Hash) (root : Hash)
    (m : List Hash) (ps : List (Proof Hash))
    (hroot : V.initial_matches root = some m) (hne : ps ≠ []) :
    Verifier.validate_proofs V root ps =
      (batch_results V m ps).all (fun b => b) := by
  match ps with
  | [] => exact absurd rfl hne
  | p :: ps' =>
      simp only [Verifier.validate_proofs, hroot, List.length_cons]
      rw [if_neg (by omega), validate_fold_eq_all, Bool.true_and]

/-- Witness for C2 at a concrete verifier, root and batch. -/
theorem C2_witness :
    idVerifier.initial_matches [7] = some [[7]] ∧
      ([(⟨[7], []⟩ : Proof (List Nat))] ≠ []) ∧
      Verifier.validate_proofs idVerifier [7] [⟨[7], []⟩] =
        (batch_results idVerifier [[7]] [⟨[7], []⟩]).all (fun b => b) :=
  ⟨rfl, by decide,
    C2_batch_is_and_of_results idVerifier [7] [[7]] [⟨[7], []⟩] rfl
      (by decide)⟩

/-- C4: when `initial_matches` rejects the root, the standalone single
proof check and the batch check both return the ordinary boolean `false`,
for every proof and every non-empty batch. -/
theorem C4_rejected_root_fails (V : Verifier Hash) (root : Hash)
    (p : Proof Hash) (ps : List (Proof Hash))
    (h : V.initial_matches root = none) :
    Verifier.validate_proof V root p = false ∧
      (ps ≠ [] → Verifier.validate_proofs V root ps = false) := by
  constructor
  · unfold Verifier.validate_proof
    rw [h]
  · intro _
    unfold Verifier.validate_proofs
    by_cases hl : ps.length < 1
    · rw [if_pos hl]
    · rw [if_neg hl, h]

/-- Witness for C4 at a concrete verifier that recognizes no root. -/
theorem C4_witness :
    noneVerifier.initial_matches [0] = none ∧
      Verifier.validate_proof noneVerifier [0] ⟨[1], []⟩ = false ∧
      Verifier.validate_proofs noneVerifier [0] [⟨[1], []⟩] = false :=
  ⟨rfl,
    (C4_rejected_root_fails noneVerifier [0] ⟨[1], []⟩ [⟨[1], []⟩] rfl).1,
    (C4_rejected_root_fails noneVerifier [0] ⟨[1], []⟩ [⟨[1], []⟩] rfl).2
      (by decide)⟩

/-- C5: a proof with a non-empty path that fails against a cache succeeds
when immediately re-validated against the resulting cache, because its
first intermediate digest was inserted during the failed run; in a batch,
the same invalid proof twice yields `false` then `true`. -/
theorem C5_failed_proof_succeeds_on_retry (V : Verifier Hash)
    (m : List Hash) (p : Proof Hash) (hpath : p.sorted_hashes ≠ [])
    (hfail : (helpers.validate_proof V m p).1 = false) :
    (helpers.validate_proof V (helpers.validate_proof V m p).2 p).1 = true ∧
      batch_results V m [p, p] = [false, true] := by
  obtain ⟨s, rest, hps⟩ : ∃ s rest, p.sorted_hashes = s :: rest := by
    cases hps : p.sorted_hashes with
    | nil => exact absurd hps hpath
    | cons s rest => exact ⟨s, rest, rfl⟩
  have hleaf : p.leaf_hash ∉ m := by
    intro hc
    unfold helpers.validate_proof at hfail
    rw [if_pos hc] at hfail
    exact absurd hfail (by simp)
  have hrun : helpers.validate_proof V m p =
      helpers.validate_loop V m p.leaf_hash (s :: rest) := by
    unfold helpers.validate_proof
    rw [if_neg hleaf, hps]
  have hmem : V.hash_of p.leaf_hash s ∈ (helpers.validate_proof V m p).2 := by
    rw [hrun]
    exact validate_loop_false_mem V m p.leaf_hash s rest
      (by rw [← hrun]; exact hfail)
  have key : ∀ m' : List Hash, V.hash_of p.leaf_hash s ∈ m' →
      (helpers.validate_proof V m' p).1 = true := by
    intro m' hm'
    unfold helpers.validate_proof
    by_cases hc : p.leaf_hash ∈ m'
    · rw [if_pos hc]
    · rw [if_neg hc, hps]
      simp only [helpers.validate_loop]
      rw [if_pos (List.mem_append_left _ hm')]
  refine ⟨key _ hmem, ?_⟩
  simp only [batch_results, hfail, key _ hmem]

/-- Witness for C5 at a concrete cache and invalid proof. -/
theorem C5_witness :
    ((⟨[0], [[1]]⟩ : Proof (List Nat)).sorted_hashes ≠ []) ∧
      (helpers.validate_proof idVerifier [] ⟨[0], [[1]]⟩).1 = false ∧
      (helpers.validate_proof idVerifier
        (helpers.validate_proof idVerifier [] ⟨[0], [[1]]⟩).2
        ⟨[0], [[1]]⟩).1 = true ∧
      batch_results idVerifier [] [⟨[0], [[1]]⟩, ⟨[0], [[1]]⟩] =
        [false, true] :=
  ⟨by decide, by decide,
    (C5_failed_proof_succeeds_on_retry idVerifier [] ⟨[0], [[1]]⟩
      (by decide) (by decide)).1,
    (C5_failed_proof_succeeds_on_retry idVerifier [] ⟨[0], [[1]]⟩
      (by decide) (by decide)).2⟩

/-- C7 fails as stated: with a constant injected digest function —
a conforming instance of the `Hasher` trait — two distinct digests have
`hash_of a b = hash_of b a`. -/
theorem C7_counterexample :
    ([0] : List Nat) ≠ [1] ∧
      Verifier.hash_of constVerifier [0] [1] =
        Verifier.hash_of constVerifier [1] [0] :=
  ⟨by decide, rfl⟩

omit [DecidableEq Hash] in
/-- C7 amended: when the injected digest function and the digest
constructor are injective and the two digests have byte views of equal
length that differ, `hash_of a b ≠ hash_of b a`. -/
theorem C7_hash_of_not_commutative (V : Verifier Hash) (a b : Hash)
    (hinj : Function.Injective V.hash)
    (hof : Function.Injective V.ofBytes)
    (hlen : (V.asRef a).length = (V.asRef b).length)
    (hne : V.asRef a ≠ V.asRef b) :
    V.hash_of a b ≠ V.hash_of b a := by
  intro he
  unfold Verifier.hash_of at he
  simp only [List.nil_append] at he
  have h2 : V.asRef a ++ V.asRef b = V.asRef b ++ V.asRef a := hinj (hof he)
  exact hne (List.append_inj_left h2 hlen)

/-- Witness for the amended C7 at an injective digest function. -/
theorem C7_witness :
    Function.Injective idVerifier.hash ∧
      Function.Injective idVerifier.ofBytes ∧
      (idVerifier.asRef [0]).length = (idVerifier.asRef [1]).length ∧
      idVerifier.asRef [0] ≠ idVerifier.asRef [1] ∧
      Verifier.hash_of idVerifier [0] [1] ≠
        Verifier.hash_of idVerifier [1] [0] :=
  ⟨fun _ _ h => h, fun _ _ h => h, rfl, by decide,
    C7_hash_of_not_commutative idVerifier [0] [1] (fun _ _ h => h)
      (fun _ _ h => h) rfl (by decide)⟩

omit [DecidableEq Hash] in
/-- C8: `bundled_hash` is the digest function applied once to the deposit
address bytes followed by each proof's leaf digest bytes in order, for
every 20-byte deposit address. -/
theorem C8_bundled_hash_is_concat (H : Hasher Hash)
    (proofs : List (Proof Hash)) (deposit_address : List Nat)
    (_hlen : deposit_address.length = 20) :
    BundleHasher.bundled_hash H proofs deposit_address =
      H.ofBytes (H.hash (deposit_address ++
        (proofs.map (fun p => H.asRef p.leaf_hash)).flatten)) := by
  unfold BundleHasher.bundled_hash
  rw [foldl_append_eq]

/-- Witness for C8 at a concrete 20-byte address and proof batch. -/
theorem C8_witness :
    (List.replicate 20 0).length = 20 ∧
      BundleHasher.bundled_hash idVerifier.toHasher
        [⟨[3], [[4]]⟩] (List.replicate 20 0) =
        idVerifier.ofBytes (idVerifier.hash (List.replicate 20 0 ++
          ([(⟨[3], [[4]]⟩ : Proof (List Nat))].map
            (fun p => idVerifier.asRef p.leaf_hash)).flatten)) :=
  ⟨by decide,
    C8_bundled_hash_is_concat idVerifier.toHasher [⟨[3], [[4]]⟩]
      (List.replicate 20 0) (by decide)⟩

end Claims
